import Mathlib

/-!
# Verification of the MP3 multiple-LSB steganography codec

A shallow embedding, in Lean 4, of the core of the
`Audio-Steganography-Multiple-LSB` program: the Vigenère cipher
(`src/cipher/vigenere.py`), the LCG position randomizer
(`src/randomizer/randomize_position.py`), the MP3 byte reader check
(`src/fileio/reader.py`), the PSNR computation (`src/stego/psnr.py`),
and the steganographic codec itself (`src/stego/stego.py`):
frame scanning, protected-index construction, embedding, width
detection, and extraction.

Modelling conventions:
* A byte stream is a `List ℕ` whose elements are `< 256` (hypotheses
  state this bound where it matters).
* Python `bytes`/`bytearray` indexing, slicing and mutation become
  `List.getD`, `drop`/`take` and `List.set`.
* File I/O is pushed to the boundary: `embed` returns the bytes that
  would be written to the output file (`Except` error when the Python
  code raises before the single `write_mp3_bytes` call), and `extract`
  returns the recovered filename bytes and payload bytes.
* A key string is modelled by the list of its character code points;
  for the ASCII keys this is equal to its UTF-8 byte sequence, so the
  same list serves both the Vigenère cipher (UTF-8 bytes) and the
  position randomizer (sum of code points).
* The Python `while` loops are written with an explicit fuel argument;
  the fuel passed by the wrappers is large enough that the loop always
  terminates by its own exit condition first.
-/

namespace Mp3Stego

/-! ## Bit-level helpers (embed/extract generators in stego.py) -/

/-- The eight bits of a byte, most significant first: in the source,
`for bitpos in range(7, -1, -1): yield (byte >> bitpos) & 1`. -/
def byteBits (b : ℕ) : List ℕ :=
  (List.range 8).map (fun i => (b >>> (7 - i)) &&& 1)

/-- Bits of a byte sequence, MSB-first within each byte. -/
def bytesToBits (l : List ℕ) : List ℕ :=
  l.flatMap byteBits

/-- Accumulate a list of bits, most significant first, into a value:
the source's `bits_val = (bits_val << 1) | next(bits)` loop.
(On bit values `|` coincides with `+` of the shifted accumulator.) -/
def packBitsMSB (bits : List ℕ) : ℕ :=
  bits.foldl (fun acc b => 2 * acc + b) 0

/-- Unpack the low `k` bits of a value, most significant first:
the source's `for bit_pos in range(k - 1, -1, -1): (v >> bit_pos) & 1`. -/
def natBitsMSB (k v : ℕ) : List ℕ :=
  (List.range k).map (fun j => (v >>> (k - 1 - j)) &&& 1)

/-! ## Vigenère cipher (src/cipher/vigenere.py) -/

/-- One pass of `zip(data, cycle(key_bytes))` for encryption:
element `i` becomes `(data[i] + key[i mod |key|]) mod 256`. -/
def vigenereEncGo (key : List ℕ) : ℕ → List ℕ → List ℕ
  | _, [] => []
  | i, b :: rest =>
      (b + key.getD (i % key.length) 0) % 256 :: vigenereEncGo key (i + 1) rest

/-- `vigenere_encrypt(data, key)`: byte-wise addition of the cycled key,
mod 256.  With an empty key, `cycle(b"")` is empty and `zip` produces
nothing, so the result is the empty byte string. -/
def vigenere_encrypt (data key : List ℕ) : List ℕ :=
  if key.length = 0 then [] else vigenereEncGo key 0 data

/-- One pass of `zip(data, cycle(key_bytes))` for decryption:
element `i` becomes `(data[i] - key[i mod |key|]) mod 256`, computed in
`ℤ` because Python's `%` returns the non-negative representative. -/
def vigenereDecGo (key : List ℕ) : ℕ → List ℕ → List ℕ
  | _, [] => []
  | i, b :: rest =>
      (((b : ℤ) - key.getD (i % key.length) 0) % 256).toNat ::
        vigenereDecGo key (i + 1) rest

/-- `vigenere_decrypt(data, key)`: byte-wise subtraction of the cycled
key, mod 256. -/
def vigenere_decrypt (data key : List ℕ) : List ℕ :=
  if key.length = 0 then [] else vigenereDecGo key 0 data

/-! ## Position randomizer (src/randomizer/randomize_position.py) -/

/-- `generate_random_position(seed, limit)`: seed is the sum of the
code points of the key, one LCG step, reduced mod `limit`. -/
def generate_random_position (seed : List ℕ) (limit : ℕ) : ℕ :=
  let a := 1664525
  let c := 1013904223
  let m := 2 ^ 32
  let integer_seed := seed.foldl (· + ·) 0
  let next_state := (a * integer_seed + c) % m
  next_state % limit

/-! ## MP3 reader check (src/fileio/reader.py) -/

/-- The validity test of `read_mp3_bytes`:
`data.startswith(b"ID3") or data[0:2] == b"\xff\xfb"`.
`[73, 68, 51]` is ASCII `ID3`. -/
def read_mp3_bytes_check (data : List ℕ) : Bool :=
  decide (data.take 3 = [73, 68, 51]) || decide (data.take 2 = [255, 251])

/-! ## PSNR (src/stego/psnr.py)

`calculate_psnr` is floating-point code; it is modelled exactly over
`ℚ` up to the final strictly monotone transform `10 * log10`: the
function below returns the argument `max_value ** 2 / mse` that the
source passes to `math.log10`, and `none` where the source returns
`float("inf")` (i.e. when `mse == 0`). -/

/-- `abs(samples).max()` (with 0 for the empty array, which the source
would reject upstream). -/
def maxAbsList (l : List ℚ) : ℚ :=
  (l.map (fun x => |x|)).foldl max 0

/-- The mean squared error of two equal-length sample lists. -/
def meanSquareDiff (a b : List ℚ) : ℚ :=
  let diffs := a.zipWith (fun x y => (x - y) ^ 2) b
  diffs.sum / (diffs.length : ℚ)

/-- `calculate_psnr(original, modified)` up to `10 * log10`:
both arrays are first divided by `max_abs = max(abs(a).max(), abs(b).max())`,
then `mse = mean((a' - b')**2)`; `mse == 0` yields `inf` (here `none`),
otherwise the value fed to `log10` is `max_value**2 / mse` with
`max_value = 1.0`. -/
def calculate_psnr_ratio (a b : List ℚ) : Option ℚ :=
  let max_abs := max (maxAbsList a) (maxAbsList b)
  let original := a.map (fun x => x / max_abs)
  let modified := b.map (fun x => x / max_abs)
  let mse := meanSquareDiff original modified
  if mse = 0 then none
  else
    let max_value : ℚ := 1
    some (max_value ^ 2 / mse)

/-- The PSNR formula exactly as the examined claim words it
(`10 * log10(1 / mean((a-b)^2))`, peak `MAX = 1.0`), again up to
`10 * log10`: the claimed argument of the logarithm. -/
def psnrClaimRatio (a b : List ℚ) : Option ℚ :=
  let mse := meanSquareDiff a b
  if mse = 0 then none else some (1 / mse)

/-! ## ID3v2 tag (stego.py: calculate_syncsafe / find_id3v2_end) -/

/-- `calculate_syncsafe(b)`: 7 bits per byte, 0 unless exactly 4 bytes. -/
def calculate_syncsafe (b : List ℕ) : ℕ :=
  if b.length ≠ 4 then 0
  else (b.getD 0 0 <<< 21) ||| (b.getD 1 0 <<< 14) ||| (b.getD 2 0 <<< 7) ||| b.getD 3 0

/-- `find_id3v2_end(data)`: `10 + syncsafe(data[6:10])` when the stream
starts with `ID3` and has at least 10 bytes, else 0. -/
def find_id3v2_end (data : List ℕ) : ℕ :=
  if data.length < 10 then 0
  else if data.take 3 ≠ [73, 68, 51] then 0
  else 10 + calculate_syncsafe ((data.drop 6).take 4)

/-! ## Frame header parsing (stego.py: _parse_frame_header) -/

/-- MPEG version as decoded from the two version bits. -/
inductive MpegVersion where
  | v1
  | v2
  | v25
deriving DecidableEq, Repr

/-- The fields `_parse_frame_header` returns on success. -/
structure HeaderInfo where
  version : MpegVersion
  layer : ℕ
  bitrate_kbps : ℕ
  sample_rate : ℕ
  padding : ℕ
  protection : ℕ
  frame_length : ℕ
deriving DecidableEq, Repr

/-- `BITRATE_TABLE[version_key][layer]`, `version_key` is `'1'` for
MPEG-1 and `'2'` for MPEG-2/2.5; `none` entries are the invalid
indices 0 and 15. -/
def BITRATE_TABLE (versionKey : ℕ) (layer : ℕ) : List (Option ℕ) :=
  if versionKey = 1 then
    if layer = 1 then
      [none, some 32, some 64, some 96, some 128, some 160, some 192, some 224,
       some 256, some 288, some 320, some 352, some 384, some 416, some 448, none]
    else if layer = 2 then
      [none, some 32, some 48, some 56, some 64, some 80, some 96, some 112,
       some 128, some 160, some 192, some 224, some 256, some 320, some 384, none]
    else
      [none, some 32, some 40, some 48, some 56, some 64, some 80, some 96,
       some 112, some 128, some 160, some 192, some 224, some 256, some 320, none]
  else
    if layer = 1 then
      [none, some 32, some 48, some 56, some 64, some 80, some 96, some 112,
       some 128, some 144, some 160, some 176, some 192, some 224, some 256, none]
    else
      [none, some 8, some 16, some 24, some 32, some 40, some 48, some 56,
       some 64, some 80, some 96, some 112, some 128, some 144, some 160, none]

/-- `SAMPLE_RATE[version]`; the last entry (index 3) is invalid. -/
def SAMPLE_RATE : MpegVersion → List (Option ℕ)
  | .v1 => [some 44100, some 48000, some 32000, none]
  | .v2 => [some 22050, some 24000, some 16000, none]
  | .v25 => [some 11025, some 12000, some 8000, none]

/-- `data[pos:pos+4]`, the slice handed to `_parse_frame_header`. -/
def slice4 (data : List ℕ) (pos : ℕ) : List ℕ :=
  (data.drop pos).take 4

/-- `_parse_frame_header(header_bytes)`.  The Python frame-length
formulas use float division followed by `int` truncation; for the
bitrate/sample-rate values of the tables the truncated float result
always equals the rational floor, so integer division is used here. -/
def parse_frame_header (header_bytes : List ℕ) : Option HeaderInfo :=
  if header_bytes.length < 4 then none
  else
    let h := (header_bytes.getD 0 0 <<< 24) ||| (header_bytes.getD 1 0 <<< 16) |||
             (header_bytes.getD 2 0 <<< 8) ||| header_bytes.getD 3 0
    let sync := (h >>> 21) &&& 0x7FF
    if sync ≠ 0x7FF then none
    else
      let version_bits := (h >>> 19) &&& 0x3
      let layer_bits := (h >>> 17) &&& 0x3
      let protection_bit := (h >>> 16) &&& 0x1
      let bitrate_index := (h >>> 12) &&& 0xF
      let sample_rate_index := (h >>> 10) &&& 0x3
      let padding_bit := (h >>> 9) &&& 0x1
      if version_bits = 1 then none
      else
        let version : MpegVersion :=
          if version_bits = 0 then .v25 else if version_bits = 2 then .v2 else .v1
        let versionKey : ℕ := if version_bits = 3 then 1 else 2
        if layer_bits = 0 then none
        else
          let layer : ℕ := if layer_bits = 1 then 3 else if layer_bits = 2 then 2 else 1
          if bitrate_index = 0 ∨ bitrate_index = 15 then none
          else
            match (SAMPLE_RATE version).getD sample_rate_index none with
            | none => none
            | some sample_rate =>
              match (BITRATE_TABLE versionKey layer).getD bitrate_index none with
              | none => none
              | some bitrate_kbps =>
                let frame_length :=
                  if layer = 1 then
                    (12 * bitrate_kbps * 1000 * 4) / sample_rate + padding_bit * 4
                  else if version = .v1 then
                    (144000 * bitrate_kbps) / sample_rate + padding_bit
                  else if layer = 3 then
                    (72000 * bitrate_kbps) / sample_rate + padding_bit
                  else
                    (144000 * bitrate_kbps) / sample_rate + padding_bit
                some ⟨version, layer, bitrate_kbps, sample_rate, padding_bit,
                      protection_bit, frame_length⟩

/-! ## Frame scanning (stego.py: find_mp3_frames) -/

/-- The inner `while cur + 4 <= limit` run-gathering loop of
`find_mp3_frames`: extends the run while consecutive valid headers
with sane lengths tile the stream; returns the final `(count, cur)`.
The fuel is an upper bound on the iteration count; callers pass
`limit + 1`, which the loop can never exhaust because `cur` grows by
at least 5 per iteration. -/
def gatherRun (data : List ℕ) (n limit : ℕ) : ℕ → ℕ → ℕ → ℕ × ℕ
  | count, cur, 0 => (count, cur)
  | count, cur, fuel + 1 =>
      if cur + 4 ≤ limit then
        match parse_frame_header (slice4 data cur) with
        | none => (count, cur)
        | some inf =>
            let fl := inf.frame_length
            if fl ≤ 4 ∨ cur + fl > n then (count, cur)
            else gatherRun data n limit (count + 1) (cur + fl) fuel
      else (count, cur)

/-- The `for _ in range(count)` emission loop of `find_mp3_frames`:
re-parses the header at each tiled position and emits
`(offset, frame_length)`; returns the emitted frames and the final
scan position `cur2`.  (On the runs it is applied to, every re-parse
succeeds; the `none` arm, which the Python code could only reach by
crashing on a missing dict entry, is unreachable.) -/
def emitRun (data : List ℕ) : ℕ → ℕ → List (ℕ × ℕ) × ℕ
  | cur2, 0 => ([], cur2)
  | cur2, count + 1 =>
      match parse_frame_header (slice4 data cur2) with
      | some info =>
          let rest := emitRun data (cur2 + info.frame_length) count
          ((cur2, info.frame_length) :: rest.1, rest.2)
      | none => ([], cur2)

/-- The outer `while pos + 4 <= limit` loop of `find_mp3_frames`.
Again fuel-driven; callers pass `limit + 1` and `pos` strictly
increases each iteration, so the loop always exits through its own
condition. -/
def findFramesLoop (data : List ℕ) (n limit min_consec : ℕ) : ℕ → ℕ → List (ℕ × ℕ)
  | _, 0 => []
  | pos, fuel + 1 =>
      if pos + 4 ≤ limit then
        match parse_frame_header (slice4 data pos) with
        | none => findFramesLoop data n limit min_consec (pos + 1) fuel
        | some info =>
            let frame_len := info.frame_length
            if frame_len ≤ 4 ∨ pos + frame_len > n then
              findFramesLoop data n limit min_consec (pos + 1) fuel
            else
              let next_pos := pos + frame_len
              if next_pos + 4 ≤ limit ∧ (parse_frame_header (slice4 data next_pos)).isSome then
                let gathered := gatherRun data n limit 1 next_pos (limit + 1)
                if min_consec ≤ gathered.1 then
                  let emitted := emitRun data pos gathered.1
                  emitted.1 ++ findFramesLoop data n limit min_consec emitted.2 fuel
                else
                  (pos, frame_len) :: findFramesLoop data n limit min_consec (pos + frame_len) fuel
              else
                (pos, frame_len) :: findFramesLoop data n limit min_consec (pos + frame_len) fuel
      else []

/-- `find_mp3_frames(data, start_offset, min_consec, max_scan)`. -/
def find_mp3_frames (data : List ℕ) (start_offset min_consec : ℕ)
    (max_scan : Option ℕ) : List (ℕ × ℕ) :=
  let n := data.length
  let limit := match max_scan with
    | none => n
    | some m => min n (start_offset + m)
  findFramesLoop data n limit min_consec start_offset (limit + 1)

/-- A run of `m` consecutive valid frames beginning at `cur`, as the
inner run-gathering loop of `find_mp3_frames` validates them: each
header parses within the scan limit, has a sane length, and tiles
exactly onto the next. -/
def validChain (data : List ℕ) (n limit : ℕ) : ℕ → ℕ → Prop
  | _, 0 => True
  | cur, m + 1 =>
      cur + 4 ≤ limit ∧ ∃ info, parse_frame_header (slice4 data cur) = some info ∧
        4 < info.frame_length ∧ cur + info.frame_length ≤ n ∧
        validChain data n limit (cur + info.frame_length) m

/-! ## Protected indices (stego.py: build_protected_indices) -/

/-- Membership of index `i` in the bytes a single frame `(fs, fl)`
adds to the protected set: the 4 header bytes, the conservative
`[fs+4, min(fs+36, fs+fl))` band, and the trailing
`[max(fs+4, fs+fl-10), fs+fl)` band, each clamped to the data length. -/
def frameProtects (n fs fl i : ℕ) : Bool :=
  (decide (fs ≤ i) && decide (i < min (fs + 4) n)) ||
  (decide (4 < fl) &&
    ((decide (fs + 4 ≤ i) && decide (i < min (min (fs + 36) (fs + fl)) n)) ||
     (decide (max (fs + 4) (fs + fl - 10) ≤ i) && decide (i < fs + fl) && decide (i < n))))

/-- `build_protected_indices(data)` as the characteristic function of
the Python set: the ID3v2 region plus the per-frame bands. -/
def build_protected_indices (data : List ℕ) (i : ℕ) : Bool :=
  let id3_end := find_id3v2_end data
  let frames := find_mp3_frames data id3_end 3 (some 2000000)
  decide (i < id3_end) || frames.any (fun f => frameProtects data.length f.1 f.2 i)

/-- `[i for i in range(len(data)) if i not in protected]`. -/
def usable_positions (data : List ℕ) : List ℕ :=
  (List.range data.length).filter (fun i => !build_protected_indices data i)

/-! ## Signatures and framing (stego.py: SIGNATURES, embed) -/

/-- The `SIGNATURES` table: per LSB width, the pair of 14-bit
start/end signature strings, as bit lists. -/
def SIGNATURES : ℕ → Option (List ℕ × List ℕ)
  | 1 => some ([1,0,1,0,1,0,1,0,1,0,1,0,1,0], [1,0,1,0,1,0,1,0,1,0,1,0,1,0])
  | 2 => some ([0,1,0,1,0,1,0,1,0,1,0,1,0,1], [0,1,0,1,0,1,0,1,0,1,0,1,0,1])
  | 3 => some ([1,0,1,0,1,0,1,0,1,0,1,0,1,0], [0,1,0,1,0,1,0,1,0,1,0,1,0,1])
  | 4 => some ([0,1,0,1,0,1,0,1,0,1,0,1,0,1], [1,0,1,0,1,0,1,0,1,0,1,0,1,0])
  | _ => none

/-- `len(payload).to_bytes(4, "little")`.  Python raises `OverflowError`
above `2^32 - 1`; callers stay below that bound. -/
def toLE4 (n : ℕ) : List ℕ :=
  [n % 256, (n / 256) % 256, (n / 65536) % 256, (n / 16777216) % 256]

/-- The extractor's little-endian length accumulation
`payload_len |= b << (i * 8)` over the four bytes read. -/
def fromLE (l : List ℕ) : ℕ :=
  (List.range l.length).foldl (fun acc i => acc ||| (l.getD i 0 <<< (i * 8))) 0

/-- Rewrite the low `k` bits of byte `b` to `v`:
`(b & ((0xFF << k) & 0xFF)) | v`. -/
def setLowBits (k b v : ℕ) : ℕ :=
  (b &&& ((0xFF <<< k) &&& 0xFF)) ||| v

/-- The typed failure surface of the codec (the distinct `raise` sites
of stego.py, reader.py and input.py). -/
inductive StegoErr where
  | invalidBitsPerSample
  | noSignatureDefined
  | missingKeyEncrypt
  | missingKeyRandom
  | notAnMp3
  | filenameTooLong
  | insufficientCapacity
  | signatureNotFound
  | fileTooShort
  | truncatedStream
deriving DecidableEq, Repr

/-- How many carrier positions one run of the embedding loop rewrites:
all `fuel` of them when the bit stream lasts the whole loop, otherwise
every position holding a full `k`-bit group plus the one receiving the
final short (possibly empty) group at the `StopIteration`. -/
def embedWriteCount (k blen fuel : ℕ) : ℕ :=
  if k * fuel ≤ blen then fuel else blen / k + 1

/-- The payload actually framed by `embed`: the secret bytes, replaced
by their Vigenère encryption when `encrypt` is set (the source
encrypts before building the header, so the length field holds the
encrypted length). -/
def embedPayload (secretContent : List ℕ) (encrypt : Bool) (key : Option (List ℕ)) :
    List ℕ :=
  match encrypt, key with
  | true, some kb => vigenere_encrypt secretContent kb
  | _, _ => secretContent

/-- The `for _ in range(total_positions)` embedding loop of `embed`:
at iteration `posIdx` the carrier byte at
`usable[(start_offset + posIdx) % len(usable)]` receives the next `k`
message bits (MSB-first) in its low `k` bits; when the bit stream runs
out mid-group (`StopIteration`) the partially accumulated value is
written and the loop returns at once.  `fuel` is `len(usable)`, the
iteration count of the Python `for` loop. -/
def embedLoop (usable : List ℕ) (start_offset k : ℕ) :
    List ℕ → List ℕ → ℕ → ℕ → List ℕ
  | carrier, _, _, 0 => carrier
  | carrier, bits, posIdx, fuel + 1 =>
      let carrier_index := usable.getD ((start_offset + posIdx) % usable.length) 0
      if bits.length < k then
        carrier.set carrier_index
          (setLowBits k (carrier.getD carrier_index 0) (packBitsMSB bits))
      else
        let c' := carrier.set carrier_index
          (setLowBits k (carrier.getD carrier_index 0) (packBitsMSB (bits.take k)))
        embedLoop usable start_offset k c' (bits.drop k) (posIdx + 1) fuel

/-- `embed(audio_path, file_to_hide_path, output_path, bits_per_sample,
encrypt, key, random_position)`.

File I/O is replaced by values: `cover` is the byte content of the
cover MP3, `secretContent` the secret file's bytes, `filenameBytes`
the UTF-8 bytes of `os.path.basename(file_to_hide_path)`.  The result
is the byte stream written to `output_path`, or the error of the
`raise` that prevented any write. -/
def embed (cover secretContent filenameBytes : List ℕ) (bits_per_sample : ℕ)
    (encrypt : Bool) (key : Option (List ℕ)) (random_position : Bool) :
    Except StegoErr (List ℕ) :=
  if ¬(1 ≤ bits_per_sample ∧ bits_per_sample ≤ 4) then .error .invalidBitsPerSample
  else if (SIGNATURES bits_per_sample).isNone then .error .noSignatureDefined
  else if encrypt ∧ key = none then .error .missingKeyEncrypt
  else if random_position ∧ key = none then .error .missingKeyRandom
  else if ¬read_mp3_bytes_check cover then .error .notAnMp3
  else if 255 < filenameBytes.length then .error .filenameTooLong
  else
    let payload := embedPayload secretContent encrypt key
    let header := toLE4 payload.length ++ [filenameBytes.length] ++ filenameBytes
    match SIGNATURES bits_per_sample with
    | none => .error .noSignatureDefined
    | some (start_signature, end_signature) =>
      let usable := usable_positions cover
      let signature_bits := start_signature.length + end_signature.length
      let data_bits := (header.length + payload.length) * 8
      let total_bits := signature_bits + data_bits
      let capacity_bits := usable.length * bits_per_sample
      if capacity_bits < total_bits then .error .insufficientCapacity
      else
        let message_bits :=
          start_signature ++ bytesToBits (header ++ payload) ++ end_signature
        let start_offset := if random_position ∧ key.isSome then
            generate_random_position (key.getD []) usable.length
          else 0
        .ok (embedLoop usable start_offset bits_per_sample cover message_bits 0
              usable.length)

/-! ## Width detection (stego.py: detect_bits_per_sample) -/

/-- The probe for one candidate width: read the first
`ceil(14 / k)` usable positions circularly from `start_offset`, unpack
their low `k` bits MSB-first, and keep the first `bits_needed` bits. -/
def probeSignatureBits (stego usable : List ℕ) (start_offset k bits_needed : ℕ) :
    List ℕ :=
  let total_positions := usable.length
  let positions_needed := (bits_needed + k - 1) / k
  (((List.range positions_needed).filter (fun pos_idx => decide (pos_idx < total_positions))).flatMap
    (fun pos_idx =>
      let byte_val := stego.getD (usable.getD ((start_offset + pos_idx) % total_positions) 0) 0
      let lsb_bits := byte_val &&& ((1 <<< k) - 1)
      (List.range k).map (fun j => (lsb_bits >>> (k - 1 - j)) &&& 1))).take bits_needed

/-- The candidate loop of `detect_bits_per_sample`: the `SIGNATURES`
dict iterates its keys in insertion order `1, 2, 3, 4`. -/
def detectGo (stego usable : List ℕ) (start_offset : ℕ) :
    List ℕ → Except StegoErr ℕ
  | [] => .error .signatureNotFound
  | k :: rest =>
      match SIGNATURES k with
      | none => detectGo stego usable start_offset rest
      | some (start_sig, _) =>
          if usable.length * k < start_sig.length then
            detectGo stego usable start_offset rest
          else if probeSignatureBits stego usable start_offset k start_sig.length = start_sig then
            .ok k
          else detectGo stego usable start_offset rest

/-- `detect_bits_per_sample(stego, usable_positions, random_position, key)`. -/
def detect_bits_per_sample (stego usable : List ℕ) (random_position : Bool)
    (key : Option (List ℕ)) : Except StegoErr ℕ :=
  let start_offset := if random_position ∧ key.isSome then
      generate_random_position (key.getD []) usable.length
    else 0
  detectGo stego usable start_offset [1, 2, 3, 4]

/-! ## Extraction (stego.py: extract) -/

/-- The extractor's `bit_stream_generator()`: yields the low `k` bits
(MSB-first) of the usable bytes in circular order from `start_offset`,
and stops after `position_index` has covered two full cycles. -/
def extractBitStream (stego usable : List ℕ) (start_offset k : ℕ) : List ℕ :=
  (List.range (2 * usable.length)).flatMap (fun position_index =>
    let pos := usable.getD ((start_offset + position_index) % usable.length) 0
    let byte_val := stego.getD pos 0
    let lsb_bits := byte_val &&& ((1 <<< k) - 1)
    (List.range k).map (fun j => (lsb_bits >>> (k - 1 - j)) &&& 1))

/-- `read_bits(n)` at a cursor into the generated bit list: `none` is
the generator's `StopIteration` (the source turns it into the
truncated-stream `ValueError`). -/
def readBitsAt (bits : List ℕ) (cursor n : ℕ) : Option (ℕ × ℕ) :=
  if cursor + n ≤ bits.length then
    some (packBitsMSB ((bits.drop cursor).take n), cursor + n)
  else none

/-- `cnt` consecutive byte reads (`read_bits(8)` each). -/
def readBytes (bits : List ℕ) : ℕ → ℕ → Option (List ℕ × ℕ)
  | cursor, 0 => some ([], cursor)
  | cursor, cnt + 1 =>
      match readBitsAt bits cursor 8 with
      | none => none
      | some (b, cur') =>
          match readBytes bits cur' cnt with
          | none => none
          | some (l, fin) => some (b :: l, fin)

/-- What `extract` recovers before its file write: the filename bytes
read from the stream (UTF-8 decoding and collision renaming happen at
the file boundary), the final payload (decrypted when requested), the
raw 4-byte length field value, and whether the end-signature check
printed its success message. -/
structure ExtractResult where
  filenameBytes : List ℕ
  payload : List ℕ
  payloadLenField : ℕ
  endSigOk : Bool
deriving DecidableEq, Repr

/-- `extract(stego_audio_path, output_path, encrypted, key,
random_position)`, with `stego` the byte content of the stego file. -/
def extract (stego : List ℕ) (encrypted : Bool) (key : Option (List ℕ))
    (random_position : Bool) : Except StegoErr ExtractResult :=
  if encrypted ∧ key = none then .error .missingKeyEncrypt
  else if ¬read_mp3_bytes_check stego then .error .notAnMp3
  else
    let usable := usable_positions stego
    match detect_bits_per_sample stego usable random_position key with
    | .error e => .error e
    | .ok bits_per_sample =>
      let start_offset := if random_position ∧ key.isSome then
          generate_random_position (key.getD []) usable.length
        else 0
      let bits := extractBitStream stego usable start_offset bits_per_sample
      let sigs := (SIGNATURES bits_per_sample).getD ([], [])
      if bits.length < sigs.1.length then .error .fileTooShort
      else
        let parsed : Option ExtractResult :=
          match readBytes bits sigs.1.length 4 with
          | none => none
          | some (lenBytes, c1) =>
            let payload_len := fromLE lenBytes
            match readBitsAt bits c1 8 with
            | none => none
            | some (filename_len, c2) =>
              match readBytes bits c2 filename_len with
              | none => none
              | some (filenameBytes, c3) =>
                match readBytes bits c3 payload_len with
                | none => none
                | some (payloadRaw, c4) =>
                  let payload := match encrypted, key with
                    | true, some kb => vigenere_decrypt payloadRaw kb
                    | _, _ => payloadRaw
                  let end_sig := sigs.2
                  let extracted_end := (bits.drop c4).take end_sig.length
                  some ⟨filenameBytes, payload, payload_len,
                        decide (extracted_end = end_sig)⟩
        match parsed with
        | none => .error .truncatedStream
        | some r => .ok r

/-! ## Concrete instances used to settle the claims -/

/-- A reader-accepted cover whose leading sync-like bytes do not parse
as a frame header (bitrate index 0), so nothing is protected: the
first two bytes are themselves rewritten by the embedder. -/
def coverFFFB : List ℕ := [255, 251, 0, 0] ++ List.replicate 96 0

/-- A small cover with a 10-byte ID3v2 tag (size 0) and 30 writable
zero bytes; the tag keeps the reader-relevant bytes protected. -/
def coverID3 : List ℕ := [73, 68, 51, 3, 0, 0, 0, 0, 0, 0] ++ List.replicate 30 0

/-- The bit content of a crafted stego body: `start_sig_1`, a zero
32-bit length field, filename length 1, filename `a`. -/
def zeroLenBits : List ℕ :=
  [1,0,1,0,1,0,1,0,1,0,1,0,1,0] ++ List.replicate 32 0 ++
    [0,0,0,0,0,0,0,1] ++ [0,1,1,0,0,0,0,1]

/-- A crafted stego file whose embedded length field decodes to 0:
ID3 tag, then one body byte per bit of `zeroLenBits`, then padding. -/
def stegoZeroLen : List ℕ :=
  [73, 68, 51, 3, 0, 0, 0, 0, 0, 0] ++ zeroLenBits ++ List.replicate 8 0

/-- The cover of the width-misdetection counterexample: reader-accepted,
no parseable frame (bitrate index 0 at offset 0, no other `0xFF` byte),
large enough to hold the crafted payload at `k = 4`. -/
def coverC3 : List ℕ := 255 :: 251 :: 0 :: 0 :: List.replicate 34971 0

/-- A secret of 17476 zero bytes: its length field bytes are
`[68, 68, 0, 0]`, whose embedded bit pattern continues the `k = 2`
start signature when read two bits per byte. -/
def secretC3 : List ℕ := List.replicate 17476 0

/-- The stego bytes `embed` produces from `coverID3` at `k = 4`. -/
def stegoC2 : List ℕ :=
  [73, 68, 51, 3, 0, 0, 0, 0, 0, 0, 5, 5, 5, 4, 0, 4, 0, 0, 0, 0, 0, 0, 0, 5,
   8, 5, 10, 2, 10, 10, 10, 0, 0, 0, 0, 0, 0, 0, 0, 0]

/-- Three consecutive MPEG-1 Layer III frames (`FF FB 10 00`,
44100 Hz, 32 kbps, length 104) followed by stray bytes. -/
def frameData : List ℕ :=
  ([255, 251, 16, 0] ++ List.replicate 100 0) ++
    ([255, 251, 16, 0] ++ List.replicate 100 0) ++
    ([255, 251, 16, 0] ++ List.replicate 100 0) ++ [1, 2, 3]

deriving instance DecidableEq for Except

/-- The acceptance condition exactly as the reader claim words it:
leading bytes `ID3`, or one of the frame-sync two-byte sequences
`FF FB`, `FF F3`, `FF F2`. -/
def readerClaimAccepts (data : List ℕ) : Bool :=
  decide (data.take 3 = [73, 68, 51]) || decide (data.take 2 = [255, 251]) ||
    decide (data.take 2 = [255, 243]) || decide (data.take 2 = [255, 242])

/-! ## C6: the reader's accepted header set -/

/-- C6 counterexample: an input starting with `FF F3` is accepted
according to the claim's list of sync markers, but the source's
`read_mp3_bytes` rejects it — the code tests only `ID3` and `FF FB`. -/
theorem c6_ff_f3_rejected :
    read_mp3_bytes_check [255, 243, 0, 0] = false ∧
      readerClaimAccepts [255, 243, 0, 0] = true := by
  decide

/-- C6 (amended): the reader rejects exactly the inputs whose leading
bytes are neither ASCII `ID3` nor the single frame-sync marker
`FF FB`; `FF F3` and `FF F2` are not accepted by the code. -/
theorem c6_reader_accepts_iff (data : List ℕ) :
    read_mp3_bytes_check data = false ↔
      ¬(data.take 3 = [73, 68, 51] ∨ data.take 2 = [255, 251]) := by
  simp [read_mp3_bytes_check, not_or]

/-! ## C8: Vigenère inversion -/

theorem vigenereDecGo_vigenereEncGo (key : List ℕ) :
    ∀ (data : List ℕ) (i : ℕ), (∀ b ∈ data, b < 256) →
      vigenereDecGo key i (vigenereEncGo key i data) = data := by
  intro data
  induction data with
  | nil => intro i _; rfl
  | cons b rest ih =>
      intro i hb
      have hblt : b < 256 := hb b (List.mem_cons_self b rest)
      simp only [vigenereEncGo, vigenereDecGo, List.cons.injEq]
      constructor
      · omega
      · exact ih (i + 1) (fun x hx => hb x (List.mem_cons_of_mem b hx))

/-- C8: for every byte sequence and non-empty key,
`vigenere_decrypt(vigenere_encrypt(x, k), k) = x`. -/
theorem c8_vigenere_roundtrip (data key : List ℕ) (hkey : key ≠ [])
    (hdata : ∀ b ∈ data, b < 256) :
    vigenere_decrypt (vigenere_encrypt data key) key = data := by
  have hklen : ¬key.length = 0 := by
    simpa [List.length_eq_zero] using hkey
  simp only [vigenere_encrypt, vigenere_decrypt, if_neg hklen]
  exact vigenereDecGo_vigenereEncGo key data 0 hdata

/-- C8 witness: the scenario key `lemon` over the bytes of
`attack at dawn`. -/
theorem c8_vigenere_roundtrip_witness :
    vigenere_decrypt
        (vigenere_encrypt
          [97,116,116,97,99,107,32,97,116,32,100,97,119,110]
          [108,101,109,111,110])
        [108,101,109,111,110] =
      [97,116,116,97,99,107,32,97,116,32,100,97,119,110] :=
  c8_vigenere_roundtrip
    [97,116,116,97,99,107,32,97,116,32,100,97,119,110]
    [108,101,109,111,110] (by decide) (by decide)

/-! ## C9: the PSNR formula -/

/-- C9 counterexample: for `a = [1/2, 1/2]`, `b = [1/2, 0]` — both
within `[-1, 1]` — the source first divides both arrays by
`max_abs = 1/2`, so the value it feeds to `10·log10` is
`2`, not the claimed `1 / mean((a-b)²) = 8`; since `10·log10` is
injective on positive arguments, the returned PSNR differs from the
claimed one. -/
theorem c9_psnr_normalizes_first :
    calculate_psnr_ratio [1/2, 1/2] [1/2, 0] = some 2 ∧
      psnrClaimRatio [1/2, 1/2] [1/2, 0] = some 8 := by
  constructor <;>
    norm_num [calculate_psnr_ratio, psnrClaimRatio, maxAbsList, meanSquareDiff,
      abs_of_nonneg]

/-- C9 (amended): writing `M = max(abs(a).max(), abs(b).max())`, the
source returns `+∞` exactly when `mean((a-b)²) = 0`, and otherwise
feeds `M² / mean((a-b)²)` — not the claimed `1 / mean((a-b)²)` — to
`10·log10`; the two agree exactly when `M = 1`. -/
theorem c9_psnr_ratio_eq (a b : List ℚ)
    (hM : max (maxAbsList a) (maxAbsList b) ≠ 0) :
    calculate_psnr_ratio a b =
      if meanSquareDiff a b = 0 then none
      else some ((max (maxAbsList a) (maxAbsList b)) ^ 2 / meanSquareDiff a b) := by
  set M := max (maxAbsList a) (maxAbsList b) with hMdef
  have hzip : (a.map (fun x => x / M)).zipWith (fun x y => (x - y) ^ 2)
      (b.map (fun x => x / M)) =
      (a.zipWith (fun x y => (x - y) ^ 2) b).map (fun d => d / M ^ 2) := by
    rw [List.zipWith_map (fun x y => (x - y) ^ 2) (fun x => x / M) (fun x => x / M) a b,
      List.map_zipWith]
    congr 1
    funext x y
    by_cases h : M = 0
    · simp [h]
    · field_simp
  have hsum : ((a.zipWith (fun x y => (x - y) ^ 2) b).map (fun d => d / M ^ 2)).sum =
      (a.zipWith (fun x y => (x - y) ^ 2) b).sum / M ^ 2 := by
    induction (a.zipWith (fun x y => (x - y) ^ 2) b) with
    | nil => simp
    | cons d rest ih => simp [ih, add_div]
  have hM2 : (M : ℚ) ^ 2 ≠ 0 := pow_ne_zero 2 hM
  simp only [calculate_psnr_ratio, meanSquareDiff, hzip, hsum, List.length_map]
  have hmse : (a.zipWith (fun x y => (x - y) ^ 2) b).sum / M ^ 2 /
      ((a.zipWith (fun x y => (x - y) ^ 2) b).length : ℚ) =
      ((a.zipWith (fun x y => (x - y) ^ 2) b).sum /
        ((a.zipWith (fun x y => (x - y) ^ 2) b).length : ℚ)) / M ^ 2 := by
    ring
  rw [hmse]
  set mse := (a.zipWith (fun x y => (x - y) ^ 2) b).sum /
      ((a.zipWith (fun x y => (x - y) ^ 2) b).length : ℚ) with hmsedef
  by_cases h0 : mse = 0
  · simp [h0, hM2]
  · have : mse / M ^ 2 ≠ 0 := div_ne_zero h0 hM2
    rw [if_neg this, if_neg h0]
    congr 1
    field_simp

/-- C9 witness for the amended theorem: concrete arrays with
`M = 1/2`, nonzero MSE `1/8`, ratio `(1/2)² / (1/8) = 2`. -/
theorem c9_psnr_ratio_eq_witness :
    max (maxAbsList [1/2, 1/2] ) (maxAbsList [1/2, 0]) ≠ 0 ∧
      calculate_psnr_ratio [1/2, 1/2] [1/2, 0] =
        if meanSquareDiff [1/2, 1/2] [1/2, 0] = 0 then none
        else some ((max (maxAbsList [1/2, 1/2]) (maxAbsList [1/2, 0])) ^ 2 /
          meanSquareDiff [1/2, 1/2] [1/2, 0]) :=
  ⟨by norm_num [maxAbsList, abs_of_nonneg],
    c9_psnr_ratio_eq [1/2, 1/2] [1/2, 0] (by norm_num [maxAbsList, abs_of_nonneg])⟩

/-! ## C4: the capacity check -/

/-- C4: once the earlier validations pass, `embed` raises its
insufficient-capacity error exactly when
`14 + 8·(4 + 1 + |filename| + |payload|) + 14` exceeds
`k · |usable_positions|` (the payload length is the post-encryption
one); in the model the error value carries no output bytes, matching
the source, which raises before its only `write_mp3_bytes` call. -/
theorem c4_insufficient_capacity_iff (cover secret fname : List ℕ) (k : ℕ)
    (enc : Bool) (key : Option (List ℕ)) (rp : Bool)
    (hk : 1 ≤ k ∧ k ≤ 4)
    (henc : ¬(enc = true ∧ key = none))
    (hrp : ¬(rp = true ∧ key = none))
    (hreader : read_mp3_bytes_check cover = true)
    (hfn : fname.length ≤ 255) :
    embed cover secret fname k enc key rp = .error .insufficientCapacity ↔
      k * (usable_positions cover).length <
        14 + 8 * (4 + 1 + fname.length + (embedPayload secret enc key).length) + 14 := by
  obtain ⟨h1, h2⟩ := hk
  interval_cases k <;>
  · simp only [embed, SIGNATURES, toLE4, List.length_append, List.length_cons,
      List.length_nil]
    split_ifs <;> simp_all <;> omega

/-- C4 witness: `coverID3` has 30 usable bytes, so at `k = 1` a
1-byte secret with a 1-byte filename (needs 76 bits) is rejected. -/
theorem c4_insufficient_capacity_iff_witness :
    ((1 ≤ 1 ∧ 1 ≤ 4) ∧ ¬(false = true ∧ (none : Option (List ℕ)) = none) ∧
      ¬(false = true ∧ (none : Option (List ℕ)) = none) ∧
      read_mp3_bytes_check coverID3 = true ∧ [97].length ≤ 255) ∧
    (embed coverID3 [104] [97] 1 false none false = .error .insufficientCapacity ↔
      1 * (usable_positions coverID3).length <
        14 + 8 * (4 + 1 + [97].length + (embedPayload [104] false none).length) + 14) :=
  ⟨⟨by decide, by decide, by decide, by decide, by decide⟩,
    c4_insufficient_capacity_iff coverID3 [104] [97] 1 false none false
      (by decide) (by decide) (by decide) (by decide) (by decide)⟩

/-! ## C7: missing-key validation and the empty key -/

/-- C7 counterexample: an empty-string key with encryption enabled is
not rejected — `embed` succeeds (the source tests `key is None` only),
and the cipher, given the empty key, turns the payload into the empty
byte string (`zip` with `cycle(b"")` is empty). -/
theorem c7_empty_key_accepted :
    (embed coverID3 [104] [97] 4 true (some []) false).toOption.isSome = true ∧
      vigenere_encrypt [104] [] = [] := by
  constructor
  · decide
  · rfl

/-- C7 (amended): with encryption requested, `embed` rejects exactly a
missing (`None`) key; the empty-string key passes the check and is
handed to the Vigenère cipher, so embedding with it is the same as
embedding an empty secret. -/
theorem c7_missing_key_checks_none_only (cover secret fname : List ℕ) (k : ℕ)
    (rp : Bool) (hk : 1 ≤ k ∧ k ≤ 4) :
    embed cover secret fname k true none rp = .error .missingKeyEncrypt ∧
      embed cover secret fname k true (some []) rp =
        embed cover [] fname k false (some []) rp := by
  constructor
  · obtain ⟨h1, h2⟩ := hk
    interval_cases k <;> rfl
  · rfl

/-- C7 witness: the amended statement at `k = 4` on `coverID3`. -/
theorem c7_missing_key_checks_none_only_witness :
    (1 ≤ 4 ∧ 4 ≤ 4) ∧
      (embed coverID3 [104] [97] 4 true none false = .error .missingKeyEncrypt ∧
        embed coverID3 [104] [97] 4 true (some []) false =
          embed coverID3 [] [97] 4 false (some []) false) :=
  ⟨by decide,
    c7_missing_key_checks_none_only coverID3 [104] [97] 4 false (by decide)⟩

/-! ## C5: the extractor has no payload-length sanity check -/

/-- `read_bits(8)`-loops return exactly as many bytes as requested. -/
theorem readBytes_length (bits : List ℕ) :
    ∀ (n cursor : ℕ) (l : List ℕ) (fin : ℕ),
      readBytes bits cursor n = some (l, fin) → l.length = n := by
  intro n
  induction n with
  | zero =>
      intro cursor l fin h
      simp [readBytes] at h
      simp [h.1.symm]
  | succ m ih =>
      intro cursor l fin h
      simp only [readBytes] at h
      cases hrb : readBitsAt bits cursor 8 with
      | none => rw [hrb] at h; exact Option.noConfusion h
      | some p =>
          obtain ⟨b, cur'⟩ := p
          rw [hrb] at h
          simp only at h
          cases hrest : readBytes bits cur' m with
          | none => rw [hrest] at h; exact Option.noConfusion h
          | some q =>
              obtain ⟨l', fin'⟩ := q
              rw [hrest] at h
              simp only [Option.some.injEq, Prod.mk.injEq] at h
              have hl := ih cur' l' fin' hrest
              rw [← h.1]
              simp [hl]

set_option maxRecDepth 10000 in
/-- C5 counterexample: a stego stream whose 4-byte length field
decodes to 0 is not rejected — the claimed `InvalidLength` check does
not exist in this extractor; extraction succeeds with an empty
payload. -/
theorem c5_zero_length_accepted :
    extract stegoZeroLen false none false = .ok ⟨[97], [], 0, false⟩ := by
  decide

/-- C5 (amended): the extractor applies no sanity bound to the decoded
length at all: whenever it succeeds (without decryption), the payload
it returns has exactly the decoded length — 0 and values above 100 MiB
included; an oversized length fails only later, as a truncated-stream
error, when the bit stream runs out. -/
theorem c5_no_length_check (stego : List ℕ) (key : Option (List ℕ)) (rp : Bool)
    (r : ExtractResult) (h : extract stego false key rp = .ok r) :
    r.payload.length = r.payloadLenField := by
  simp only [extract, Bool.false_eq_true, false_and, if_false] at h
  split at h
  case isTrue => exact Except.noConfusion h
  case isFalse =>
  split at h
  next e heq => exact Except.noConfusion h
  next k heq =>
  split at h <;>
  · split at h
    next => exact Except.noConfusion h
    next =>
      split at h
      next heqp => exact Except.noConfusion h
      next r' heq2 =>
      obtain rfl : r' = r := by injection h
      split at heq2
      next heq3 => exact Option.noConfusion heq2
      next lenBytes c1 heq3 =>
      split at heq2
      next heq4 => exact Option.noConfusion heq2
      next filename_len c2 heq4 =>
      split at heq2
      next heq5 => exact Option.noConfusion heq2
      next fnB c3 heq5 =>
      split at heq2
      next heq6 => exact Option.noConfusion heq2
      next payloadRaw c4 heq6 =>
      obtain rfl := (Option.some.inj heq2).symm
      exact readBytes_length _ _ _ _ _ heq6

set_option maxRecDepth 10000 in
/-- C5 witness: the amended statement on the crafted zero-length
stream. -/
theorem c5_no_length_check_witness :
    extract stegoZeroLen false none false = .ok ⟨[97], [], 0, false⟩ ∧
      (ExtractResult.mk [97] [] 0 false).payload.length =
        (ExtractResult.mk [97] [] 0 false).payloadLenField := by
  have hc : extract stegoZeroLen false none false = .ok ⟨[97], [], 0, false⟩ := by
    decide
  exact ⟨hc, c5_no_length_check stegoZeroLen none false _ hc⟩

/-! ## Bit-packing lemmas -/

theorem packBitsMSB_foldl (l : List ℕ) :
    ∀ a : ℕ, l.foldl (fun acc b => 2 * acc + b) a = a * 2 ^ l.length + packBitsMSB l := by
  induction l with
  | nil => intro a; simp [packBitsMSB]
  | cons b t ih =>
      intro a
      simp only [List.foldl_cons, packBitsMSB, List.length_cons]
      rw [ih (2 * a + b), ih (2 * 0 + b)]
      ring

theorem packBitsMSB_cons (b : ℕ) (t : List ℕ) :
    packBitsMSB (b :: t) = b * 2 ^ t.length + packBitsMSB t := by
  simp only [packBitsMSB, List.foldl_cons]
  rw [packBitsMSB_foldl t (2 * 0 + b)]
  ring_nf
  rfl

theorem packBitsMSB_lt (l : List ℕ) (h : ∀ b ∈ l, b < 2) :
    packBitsMSB l < 2 ^ l.length := by
  induction l with
  | nil => simp [packBitsMSB]
  | cons b t ih =>
      have hb : b < 2 := h b (List.mem_cons_self b t)
      have ht := ih (fun x hx => h x (List.mem_cons_of_mem b hx))
      rw [packBitsMSB_cons]
      simp only [List.length_cons, pow_succ]
      nlinarith

/-- Unpacking the accumulated value of a bit list, MSB-first, recovers
the list: the embed-side `(bits_val << 1) | bit` loop and the
extract-side `(lsb_bits >> bit_pos) & 1` loop are mutually inverse. -/
theorem natBitsMSB_packBitsMSB (l : List ℕ) (h : ∀ b ∈ l, b < 2) :
    natBitsMSB l.length (packBitsMSB l) = l := by
  induction l with
  | nil => simp [natBitsMSB]
  | cons b t ih =>
      have hb : b < 2 := h b (List.mem_cons_self b t)
      have ht : ∀ x ∈ t, x < 2 := fun x hx => h x (List.mem_cons_of_mem b hx)
      have hlt := packBitsMSB_lt t ht
      have ihm := ih ht
      simp only [natBitsMSB] at ihm ⊢
      simp only [List.length_cons, List.range_succ_eq_map, List.map_cons, List.map_map]
      congr 1
      · rw [packBitsMSB_cons, Nat.shiftRight_eq_div_pow]
        simp only [Nat.add_sub_cancel, Nat.sub_zero]
        rw [add_comm (b * 2 ^ t.length) (packBitsMSB t),
          Nat.add_mul_div_right _ _ (Nat.pos_pow_of_pos t.length (by norm_num)),
          Nat.div_eq_of_lt hlt, Nat.and_one_is_mod]
        omega
      · conv_rhs => rw [← ihm]
        apply List.map_congr_left
        intro j hj
        have hjL : j < t.length := List.mem_range.mp hj
        simp only [Function.comp_apply]
        have hidx : t.length + 1 - 1 - (j + 1) = t.length - 1 - j := by omega
        rw [hidx]
        set m := t.length - 1 - j with hm
        have hmL : m + 1 ≤ t.length := by omega
        rw [packBitsMSB_cons, Nat.shiftRight_eq_div_pow, Nat.shiftRight_eq_div_pow]
        have hsplit : b * 2 ^ t.length = (b * 2 ^ (t.length - m)) * 2 ^ m := by
          rw [mul_assoc, ← pow_add]
          congr 2
          omega
        rw [add_comm (b * 2 ^ t.length) (packBitsMSB t), hsplit,
          Nat.add_mul_div_right _ _ (Nat.pos_pow_of_pos m (by norm_num))]
        have heven : 2 ∣ b * 2 ^ (t.length - m) := by
          have : t.length - m = (t.length - m - 1) + 1 := by omega
          rw [this, pow_succ]
          exact Dvd.intro (b * 2 ^ (t.length - m - 1)) (by ring)
        obtain ⟨c, hc⟩ := heven
        rw [Nat.and_one_is_mod, Nat.and_one_is_mod, hc]
        omega

/-! ## Byte-level and list helpers -/

set_option maxRecDepth 4000 in
/-- The carrier rewrite `(b & ((0xFF << k) & 0xFF)) | v` keeps the high
bits `b / 2^k`, installs `v` in the low `k` bits, and stays a byte —
checked exhaustively over the byte range and the widths 1–4. -/
theorem setLowBits_spec :
    ∀ k, k < 5 → 1 ≤ k → ∀ b, b < 256 → ∀ v, v < 2 ^ k →
      setLowBits k b v % 2 ^ k = v ∧ setLowBits k b v / 2 ^ k = b / 2 ^ k ∧
        setLowBits k b v < 256 := by decide

/-- The extractor's mask read `byte & ((1 << k) - 1)` is reduction mod
`2^k`. -/
theorem and_shift_mask (b k : ℕ) : b &&& ((1 <<< k) - 1) = b % 2 ^ k := by
  rw [Nat.shiftLeft_eq, one_mul, Nat.and_pow_two_sub_one_eq_mod]

theorem getD_set_ne (l : List ℕ) (i j v : ℕ) (h : i ≠ j) :
    (l.set i v).getD j 0 = l.getD j 0 := by
  simp [List.getD_eq_getElem?_getD, List.getElem?_set_ne h]

theorem getD_set_self (l : List ℕ) (i v : ℕ) (h : i < l.length) :
    (l.set i v).getD i 0 = v := by
  simp [List.getD_eq_getElem?_getD, List.getElem?_set_self h]

theorem getD_mem (l : List ℕ) (m : ℕ) (h : m < l.length) : l.getD m 0 ∈ l := by
  rw [List.getD_eq_getElem?_getD, List.getElem?_eq_getElem h]
  exact List.getElem_mem h

theorem nodup_getD_ne (l : List ℕ) (hl : l.Nodup) (m1 m2 : ℕ)
    (h1 : m1 < l.length) (h2 : m2 < l.length) (hne : m1 ≠ m2) :
    l.getD m1 0 ≠ l.getD m2 0 := by
  rw [List.getD_eq_getElem?_getD, List.getD_eq_getElem?_getD,
    List.getElem?_eq_getElem h1, List.getElem?_eq_getElem h2]
  simp only [Option.getD_some]
  intro h
  exact hne ((hl.getElem_inj_iff).mp h)

/-- Two circular positions within one lap of each other differ. -/
theorem mod_shift_ne (a d N : ℕ) (hd : 0 < d) (hdN : d < N) :
    (a + d) % N ≠ a % N := by
  intro h
  have hmod : a ≡ a + d [MOD N] := h.symm
  have hdvd : N ∣ d := by
    have := (Nat.modEq_iff_dvd' (Nat.le_add_right a d)).mp hmod
    simpa using this
  exact absurd (Nat.le_of_dvd hd hdvd) (by omega)

/-! ## The embedding loop: full characterization -/

/-- What one run of the embedding loop does: position
`usable[(off + posIdx + t) % N]`, for `t` below the write count,
holds the `t`-th `k`-bit group of the bit stream in its low `k` bits
(the final group possibly short, its value the accumulated remaining
bits); every other byte is untouched; the length never changes. -/
theorem embedLoop_spec (u : List ℕ) (off k : ℕ) (hk : 0 < k) (hu : u.Nodup) :
    ∀ (fuel posIdx : ℕ) (carrier bits : List ℕ),
      posIdx + fuel = u.length →
      (∀ x ∈ u, x < carrier.length) →
      ((embedLoop u off k carrier bits posIdx fuel).length = carrier.length ∧
       (∀ j, (∀ t, t < embedWriteCount k bits.length fuel →
           j ≠ u.getD ((off + posIdx + t) % u.length) 0) →
         (embedLoop u off k carrier bits posIdx fuel).getD j 0 = carrier.getD j 0) ∧
       (∀ t, t < embedWriteCount k bits.length fuel →
         (embedLoop u off k carrier bits posIdx fuel).getD
             (u.getD ((off + posIdx + t) % u.length) 0) 0 =
           setLowBits k (carrier.getD (u.getD ((off + posIdx + t) % u.length) 0) 0)
             (packBitsMSB ((bits.drop (k * t)).take k)))) := by
  intro fuel
  induction fuel with
  | zero =>
      intro posIdx carrier bits hpf hbound
      have hW : embedWriteCount k bits.length 0 = 0 := by
        simp [embedWriteCount]
      refine ⟨rfl, fun j _ => rfl, fun t ht => ?_⟩
      rw [hW] at ht
      omega
  | succ fuel ih =>
      intro posIdx carrier bits hpf hbound
      have hN : 0 < u.length := by omega
      have hposIdx : posIdx < u.length := by omega
      set N := u.length with hNdef
      set m0 := (off + posIdx) % N with hm0
      have hm0N : m0 < N := Nat.mod_lt _ hN
      set ci := u.getD m0 0 with hci
      have hciu : ci ∈ u := getD_mem u m0 (by omega)
      have hcilen : ci < carrier.length := hbound ci hciu
      by_cases hlen : bits.length < k
      · -- StopIteration: one final (short) write, then return
        have hstep : embedLoop u off k carrier bits posIdx (fuel + 1) =
            carrier.set ci (setLowBits k (carrier.getD ci 0) (packBitsMSB bits)) := by
          simp only [embedLoop, ← hNdef, ← hm0, ← hci, if_pos hlen]
        have hW : embedWriteCount k bits.length (fuel + 1) = 1 := by
          simp only [embedWriteCount]
          rw [if_neg (by nlinarith [Nat.le_mul_of_pos_right k (Nat.succ_pos fuel)]),
            Nat.div_eq_of_lt hlen]
        rw [hstep, hW]
        refine ⟨by simp, ?_, ?_⟩
        · intro j hj
          have h0 := hj 0 (by omega)
          rw [Nat.add_zero, ← hm0, ← hci] at h0
          exact getD_set_ne _ _ _ _ (Ne.symm h0)
        · intro t ht
          have ht0 : t = 0 := by omega
          subst ht0
          simp only [Nat.add_zero, Nat.mul_zero, List.drop_zero, ← hm0, ← hci]
          rw [List.take_of_length_le (by omega)]
          exact getD_set_self _ _ _ hcilen
      · -- a full k-bit group is written and the loop continues
        push_neg at hlen
        have hstep : embedLoop u off k carrier bits posIdx (fuel + 1) =
            embedLoop u off k
              (carrier.set ci (setLowBits k (carrier.getD ci 0) (packBitsMSB (bits.take k))))
              (bits.drop k) (posIdx + 1) fuel := by
          simp only [embedLoop, ← hNdef, ← hm0, ← hci, if_neg (by omega : ¬bits.length < k)]
        set c' := carrier.set ci (setLowBits k (carrier.getD ci 0) (packBitsMSB (bits.take k)))
          with hc'
        have hc'len : c'.length = carrier.length := by simp [hc']
        obtain ⟨ih1, ih2, ih3⟩ := ih (posIdx + 1) c' (bits.drop k) (by omega)
          (fun x hx => by rw [hc'len]; exact hbound x hx)
        set W' := embedWriteCount k (bits.drop k).length fuel with hW'
        have hW'fuel : W' ≤ fuel := by
          simp only [hW', embedWriteCount]
          split
          · exact le_refl _
          · next h =>
            push_neg at h
            have : (bits.drop k).length / k < fuel := by
              rw [Nat.div_lt_iff_lt_mul hk]
              calc (bits.drop k).length < k * fuel := h
                _ = fuel * k := Nat.mul_comm _ _
            omega
        have hWsucc : embedWriteCount k bits.length (fuel + 1) = W' + 1 := by
          simp only [hW', embedWriteCount, List.length_drop]
          have hmulsucc : k * (fuel + 1) = k * fuel + k := by ring
          rcases Nat.lt_or_ge bits.length (k * (fuel + 1)) with hc | hc
          · rw [if_neg (by omega), if_neg (by omega)]
            have hsub : (bits.length - k * 1) / k = bits.length / k - 1 :=
              Nat.sub_mul_div bits.length k 1 (by omega)
            rw [Nat.mul_one] at hsub
            have hq : 0 < bits.length / k := Nat.div_pos hlen hk
            omega
          · rw [if_pos (by omega), if_pos (by omega)]
        -- distinctness of the current write from every later write
        have hdist : ∀ t', t' < W' → ci ≠ u.getD ((off + (posIdx + 1) + t') % N) 0 := by
          intro t' ht'
          have harg : off + (posIdx + 1) + t' = off + posIdx + (t' + 1) := by ring
          rw [harg]
          have hm' : (off + posIdx + (t' + 1)) % N ≠ m0 := by
            rw [hm0]
            exact mod_shift_ne (off + posIdx) (t' + 1) N (by omega) (by omega)
          exact nodup_getD_ne u hu m0 ((off + posIdx + (t' + 1)) % N)
            (by omega) (Nat.mod_lt _ hN) (Ne.symm hm')
        rw [hstep, hWsucc]
        refine ⟨by rw [ih1, hc'len], ?_, ?_⟩
        · intro j hj
          have hj' : ∀ t', t' < W' → j ≠ u.getD ((off + (posIdx + 1) + t') % N) 0 := by
            intro t' ht'
            have harg : off + (posIdx + 1) + t' = off + posIdx + (t' + 1) := by ring
            rw [harg]
            exact hj (t' + 1) (by omega)
          rw [ih2 j hj']
          have h0 := hj 0 (by omega)
          rw [Nat.add_zero, ← hm0, ← hci] at h0
          exact getD_set_ne _ _ _ _ (Ne.symm h0)
        · intro t ht
          obtain _ | t'' := t
          · -- the group written right now survives the recursion
            have e1 : (embedLoop u off k c' (bits.drop k) (posIdx + 1) fuel).getD ci 0 =
                c'.getD ci 0 := ih2 ci hdist
            have e2 : c'.getD ci 0 =
                setLowBits k (carrier.getD ci 0) (packBitsMSB (bits.take k)) :=
              getD_set_self _ _ _ hcilen
            exact e1.trans e2
          · have harg : off + posIdx + (t'' + 1) = off + (posIdx + 1) + t'' := by ring
            rw [harg, ih3 t'' (by omega)]
            have hpne : ci ≠ u.getD ((off + (posIdx + 1) + t'') % N) 0 :=
              hdist t'' (by omega)
            rw [getD_set_ne _ _ _ _ hpne]
            rw [List.drop_drop]
            congr 2
            ring

/-! ## Usable positions and embed inversion -/

theorem usable_positions_nodup (data : List ℕ) : (usable_positions data).Nodup :=
  (List.nodup_range _).filter _

theorem usable_positions_lt (data : List ℕ) :
    ∀ x ∈ usable_positions data, x < data.length := by
  intro x hx
  have := List.mem_filter.mp hx
  exact List.mem_range.mp this.1

theorem usable_positions_not_protected (data : List ℕ) :
    ∀ x ∈ usable_positions data, build_protected_indices data x = false := by
  intro x hx
  have := (List.mem_filter.mp hx).2
  simpa using this

theorem embed_ok_elim {cover secret fname : List ℕ} {k : ℕ} {enc : Bool}
    {key : Option (List ℕ)} {rp : Bool} {out : List ℕ}
    (h : embed cover secret fname k enc key rp = .ok out) :
    (1 ≤ k ∧ k ≤ 4) ∧ read_mp3_bytes_check cover = true ∧ fname.length ≤ 255 ∧
      ∀ ss es, SIGNATURES k = some (ss, es) →
        (ss.length + es.length +
            ((toLE4 (embedPayload secret enc key).length ++ [fname.length] ++ fname).length +
              (embedPayload secret enc key).length) * 8
            ≤ (usable_positions cover).length * k ∧
          out = embedLoop (usable_positions cover)
            (if rp = true ∧ key.isSome = true then
              generate_random_position (key.getD []) (usable_positions cover).length
            else 0) k cover
            (ss ++ bytesToBits
              ((toLE4 (embedPayload secret enc key).length ++ [fname.length] ++ fname) ++
                embedPayload secret enc key) ++ es)
            0 (usable_positions cover).length) := by
  simp only [embed] at h
  split at h
  · exact Except.noConfusion h
  · next hg1 =>
    split at h
    · exact Except.noConfusion h
    · next hg2 =>
      split at h
      · exact Except.noConfusion h
      · next hg3 =>
        split at h
        · exact Except.noConfusion h
        · next hg4 =>
          split at h
          · exact Except.noConfusion h
          · next hg5 =>
            split at h
            · exact Except.noConfusion h
            · next hg6 =>
              push_neg at hg1
              refine ⟨hg1, by simpa using hg5, by omega, ?_⟩
              intro ss es hsig
              split at h
              · exact Except.noConfusion h
              · next ss' es' hsig' =>
                rw [hsig] at hsig'
                obtain ⟨rfl, rfl⟩ : ss' = ss ∧ es' = es := by
                  have := Option.some.inj hsig'
                  exact ⟨congrArg Prod.fst this.symm, congrArg Prod.snd this.symm⟩
                split at h
                · exact Except.noConfusion h
                · next hcap =>
                  refine ⟨by omega, ?_⟩
                  exact (Except.ok.inj h).symm

/-! ## C2: the frame effect of embedding -/

theorem byteBits_lt (b : ℕ) : ∀ x ∈ byteBits b, x < 2 := by
  intro x hx
  simp only [byteBits, List.mem_map] at hx
  obtain ⟨i, _, rfl⟩ := hx
  have : (b >>> (7 - i)) &&& 1 = (b >>> (7 - i)) % 2 := Nat.and_one_is_mod _
  omega

theorem bytesToBits_lt (l : List ℕ) : ∀ x ∈ bytesToBits l, x < 2 := by
  intro x hx
  simp only [bytesToBits, List.mem_flatMap] at hx
  obtain ⟨b, _, hb⟩ := hx
  exact byteBits_lt b x hb

theorem signatures_spec (k : ℕ) (hk : 1 ≤ k ∧ k ≤ 4) :
    ∀ ss es, SIGNATURES k = some (ss, es) →
      (∀ b ∈ ss, b < 2) ∧ (∀ b ∈ es, b < 2) ∧ ss.length = 14 ∧ es.length = 14 := by
  obtain ⟨h1, h2⟩ := hk
  interval_cases k <;>
  · intro ss es hsig
    simp only [SIGNATURES, Option.some.injEq] at hsig
    obtain ⟨rfl, rfl⟩ : _ ∧ _ :=
      ⟨congrArg Prod.fst hsig.symm, congrArg Prod.snd hsig.symm⟩
    refine ⟨by decide, by decide, by decide, by decide⟩

theorem getD_lt_256 (l : List ℕ) (h : ∀ b ∈ l, b < 256) (i : ℕ) : l.getD i 0 < 256 := by
  by_cases hi : i < l.length
  · exact h _ (getD_mem l i hi)
  · rw [List.getD_eq_getElem?_getD, List.getElem?_eq_none (by omega)]
    norm_num

/-- C2: when `embed` succeeds, the output has the cover's length,
agrees with the cover at every index of the protected set computed
from the cover, and each byte keeps its high `8 - k` bits: only the
low `k` bits of non-protected bytes change. -/
theorem c2_embed_effect (cover secret fname out : List ℕ) (k : ℕ) (enc : Bool)
    (key : Option (List ℕ)) (rp : Bool)
    (hbytes : ∀ b ∈ cover, b < 256)
    (h : embed cover secret fname k enc key rp = .ok out) :
    out.length = cover.length ∧
      (∀ i, build_protected_indices cover i = true → out.getD i 0 = cover.getD i 0) ∧
      (∀ i, out.getD i 0 / 2 ^ k = cover.getD i 0 / 2 ^ k) := by
  obtain ⟨hk, hreader, hfn, hrest⟩ := embed_ok_elim h
  obtain ⟨ss, es, hsig⟩ : ∃ ss es, SIGNATURES k = some (ss, es) := by
    obtain ⟨h1, h2⟩ := hk
    interval_cases k <;> exact ⟨_, _, rfl⟩
  obtain ⟨hcap, hout⟩ := hrest ss es hsig
  obtain ⟨hssb, hesb, hsslen, heslen⟩ := signatures_spec k hk ss es hsig
  set u := usable_positions cover with hu
  set off := if rp = true ∧ key.isSome = true then
      generate_random_position (key.getD []) u.length else 0 with hoff
  set msg := ss ++ bytesToBits
      ((toLE4 (embedPayload secret enc key).length ++ [fname.length] ++ fname) ++
        embedPayload secret enc key) ++ es with hmsg
  have hmsgb : ∀ b ∈ msg, b < 2 := by
    intro b hb
    rw [hmsg] at hb
    rcases List.mem_append.mp hb with hb' | hb'
    · rcases List.mem_append.mp hb' with hb'' | hb''
      · exact hssb b hb''
      · exact bytesToBits_lt _ b hb''
    · exact hesb b hb'
  obtain ⟨hL, hUn, hWr⟩ := embedLoop_spec u off k (by omega) (usable_positions_nodup cover)
    u.length 0 cover msg (by omega) (usable_positions_lt cover)
  have chunk_lt : ∀ t : ℕ, packBitsMSB ((msg.drop (k * t)).take k) < 2 ^ k := by
    intro t
    have hb : ∀ b ∈ (msg.drop (k * t)).take k, b < 2 := by
      intro b hb
      exact hmsgb b (List.mem_of_mem_drop (List.mem_of_mem_take hb))
    calc packBitsMSB ((msg.drop (k * t)).take k) < 2 ^ ((msg.drop (k * t)).take k).length :=
          packBitsMSB_lt _ hb
      _ ≤ 2 ^ k := Nat.pow_le_pow_right (by norm_num) (by simp [List.length_take])
  rw [hout]
  refine ⟨hL, ?_, ?_⟩
  · intro i hip
    apply hUn
    intro t ht
    have hN : 0 < u.length := by
      rcases Nat.eq_zero_or_pos u.length with h0 | h
      · rw [h0] at ht
        simp [embedWriteCount] at ht
      · exact h
    intro hcontra
    have hmem : u.getD ((off + 0 + t) % u.length) 0 ∈ u :=
      getD_mem _ _ (Nat.mod_lt _ hN)
    have hnp := usable_positions_not_protected cover _ hmem
    rw [← hcontra, hip] at hnp
    exact Bool.noConfusion hnp
  · intro i
    by_cases hcase : ∀ t, t < embedWriteCount k msg.length u.length →
        i ≠ u.getD ((off + 0 + t) % u.length) 0
    · rw [hUn i hcase]
    · push_neg at hcase
      obtain ⟨t, ht, heq⟩ := hcase
      have hN : 0 < u.length := by
        rcases Nat.eq_zero_or_pos u.length with h0 | h
        · rw [h0] at ht
          simp [embedWriteCount] at ht
        · exact h
      rw [heq, hWr t ht]
      have h256 : cover.getD (u.getD ((off + 0 + t) % u.length) 0) 0 < 256 :=
        getD_lt_256 cover hbytes _
      exact (setLowBits_spec k (by omega) (by omega) _ h256 _ (chunk_lt t)).2.1


/-- C2 witness: the frame-effect theorem on a concrete embedding. -/
theorem c2_embed_effect_witness :
    ((∀ b ∈ coverID3, b < 256) ∧
        embed coverID3 [104] [97] 4 false none false = .ok stegoC2) ∧
      (stegoC2.length = coverID3.length ∧
        (∀ i, build_protected_indices coverID3 i = true →
          stegoC2.getD i 0 = coverID3.getD i 0) ∧
        (∀ i, stegoC2.getD i 0 / 2 ^ 4 = coverID3.getD i 0 / 2 ^ 4)) :=
  ⟨⟨by decide, by decide⟩,
    c2_embed_effect coverID3 [104] [97] stegoC2 4 false none false
      (by decide) (by decide)⟩

/-! ## C10: frame-scanner invariants -/

theorem gatherRun_chain (data : List ℕ) (n limit : ℕ) :
    ∀ (fuel count cur : ℕ),
      count ≤ (gatherRun data n limit count cur fuel).1 ∧
      validChain data n limit cur ((gatherRun data n limit count cur fuel).1 - count) := by
  intro fuel
  induction fuel with
  | zero =>
      intro count cur
      simp only [gatherRun]
      exact ⟨le_refl _, by simp [validChain]⟩
  | succ fuel ih =>
      intro count cur
      simp only [gatherRun]
      by_cases hb : cur + 4 ≤ limit
      · rw [if_pos hb]
        cases hparse : parse_frame_header (slice4 data cur) with
        | none => exact ⟨le_refl _, by simp [validChain]⟩
        | some inf =>
            simp only
            by_cases hfl : inf.frame_length ≤ 4 ∨ cur + inf.frame_length > n
            · rw [if_pos hfl]
              exact ⟨le_refl _, by simp [validChain]⟩
            · rw [if_neg hfl]
              push_neg at hfl
              obtain ⟨hle, hchain⟩ := ih (count + 1) (cur + inf.frame_length)
              refine ⟨by omega, ?_⟩
              have hlen : (gatherRun data n limit (count + 1) (cur + inf.frame_length) fuel).1 - count =
                  ((gatherRun data n limit (count + 1) (cur + inf.frame_length) fuel).1 - (count + 1)) + 1 := by
                omega
              rw [hlen]
              exact ⟨hb, inf, hparse, hfl.1, hfl.2, hchain⟩
      · rw [if_neg hb]
        exact ⟨le_refl _, by simp [validChain]⟩

theorem emitRun_spec (data : List ℕ) (n limit : ℕ) :
    ∀ (m cur : ℕ), validChain data n limit cur m →
      cur ≤ (emitRun data cur m).2 ∧
      (∀ p ∈ (emitRun data cur m).1,
        cur ≤ p.1 ∧ 4 < p.2 ∧ p.1 + p.2 ≤ n ∧ p.1 + p.2 ≤ (emitRun data cur m).2) ∧
      (emitRun data cur m).1.Pairwise (fun f g => f.1 < g.1 ∧ f.1 + f.2 ≤ g.1) := by
  intro m
  induction m with
  | zero =>
      intro cur _
      simp [emitRun]
  | succ m ih =>
      intro cur hchain
      obtain ⟨hb, info, hparse, hfl, hn, hrest⟩ := hchain
      obtain ⟨ih1, ih2, ih3⟩ := ih (cur + info.frame_length) hrest
      simp only [emitRun, hparse]
      refine ⟨by omega, ?_, ?_⟩
      · intro p hp
        rcases List.mem_cons.mp hp with rfl | hp'
        · exact ⟨le_refl _, hfl, hn, by omega⟩
        · have := ih2 p hp'
          exact ⟨by omega, this.2.1, this.2.2.1, this.2.2.2⟩
      · refine List.Pairwise.cons ?_ ih3
        intro g hg
        have := ih2 g hg
        exact ⟨by omega, by omega⟩

theorem findFramesLoop_spec (data : List ℕ) (n limit mc : ℕ) :
    ∀ (fuel pos : ℕ),
      (∀ p ∈ findFramesLoop data n limit mc pos fuel,
        pos ≤ p.1 ∧ 4 < p.2 ∧ p.1 + p.2 ≤ n) ∧
      (findFramesLoop data n limit mc pos fuel).Pairwise
        (fun f g => f.1 < g.1 ∧ f.1 + f.2 ≤ g.1) := by
  intro fuel
  induction fuel with
  | zero => intro pos; simp [findFramesLoop]
  | succ fuel ih =>
      intro pos
      simp only [findFramesLoop]
      by_cases hb : pos + 4 ≤ limit
      · rw [if_pos hb]
        cases hparse : parse_frame_header (slice4 data pos) with
        | none =>
            obtain ⟨ihA, ihB⟩ := ih (pos + 1)
            exact ⟨fun p hp => ⟨by have := (ihA p hp).1; omega, (ihA p hp).2.1,
              (ihA p hp).2.2⟩, ihB⟩
        | some info =>
            simp only
            by_cases hfl : info.frame_length ≤ 4 ∨ pos + info.frame_length > n
            · rw [if_pos hfl]
              obtain ⟨ihA, ihB⟩ := ih (pos + 1)
              exact ⟨fun p hp => ⟨by have := (ihA p hp).1; omega, (ihA p hp).2.1,
                (ihA p hp).2.2⟩, ihB⟩
            · rw [if_neg hfl]
              push_neg at hfl
              by_cases hv2 : pos + info.frame_length + 4 ≤ limit ∧
                  (parse_frame_header (slice4 data (pos + info.frame_length))).isSome
              · rw [if_pos hv2]
                by_cases hmc : mc ≤ (gatherRun data n limit 1 (pos + info.frame_length) (limit + 1)).1
                · rw [if_pos hmc]
                  -- run emission
                  obtain ⟨hge1, hchain1⟩ := gatherRun_chain data n limit (limit + 1) 1
                    (pos + info.frame_length)
                  set count := (gatherRun data n limit 1 (pos + info.frame_length) (limit + 1)).1
                    with hcount
                  have hchain : validChain data n limit pos count := by
                    have hc : count = (count - 1) + 1 := by omega
                    rw [hc]
                    exact ⟨hb, info, hparse, hfl.1, hfl.2, hchain1⟩
                  obtain ⟨hfin, hall, hpw⟩ := emitRun_spec data n limit count pos hchain
                  obtain ⟨ihA, ihB⟩ := ih (emitRun data pos count).2
                  constructor
                  · intro p hp
                    rcases List.mem_append.mp hp with hp' | hp'
                    · have := hall p hp'
                      exact ⟨this.1, this.2.1, this.2.2.1⟩
                    · have := ihA p hp'
                      exact ⟨by omega, this.2.1, this.2.2⟩
                  · rw [List.pairwise_append]
                    refine ⟨hpw, ihB, ?_⟩
                    intro a ha b hb'
                    have hA := hall a ha
                    have hB := (ihA b hb').1
                    exact ⟨by omega, by omega⟩
                · rw [if_neg hmc]
                  obtain ⟨ihA, ihB⟩ := ih (pos + info.frame_length)
                  constructor
                  · intro p hp
                    rcases List.mem_cons.mp hp with rfl | hp'
                    · exact ⟨le_refl _, hfl.1, hfl.2⟩
                    · have := ihA p hp'
                      exact ⟨by omega, this.2.1, this.2.2⟩
                  · refine List.Pairwise.cons ?_ ihB
                    intro g hg
                    have := (ihA g hg).1
                    exact ⟨by omega, by omega⟩
              · rw [if_neg hv2]
                obtain ⟨ihA, ihB⟩ := ih (pos + info.frame_length)
                constructor
                · intro p hp
                  rcases List.mem_cons.mp hp with rfl | hp'
                  · exact ⟨le_refl _, hfl.1, hfl.2⟩
                  · have := ihA p hp'
                    exact ⟨by omega, this.2.1, this.2.2⟩
                · refine List.Pairwise.cons ?_ ihB
                  intro g hg
                  have := (ihA g hg).1
                  exact ⟨by omega, by omega⟩
      · rw [if_neg hb]
        simp

/-- C10: every frame list the scanner returns is strictly increasing
in offset with pairwise non-overlapping frames, and each emitted frame
`(off, len)` satisfies `start_offset ≤ off`, `4 < len`, and
`off + len ≤ |data|`. -/
theorem c10_find_frames_invariants (data : List ℕ) (start_offset min_consec : ℕ)
    (max_scan : Option ℕ) :
    (∀ p ∈ find_mp3_frames data start_offset min_consec max_scan,
        start_offset ≤ p.1 ∧ 4 < p.2 ∧ p.1 + p.2 ≤ data.length) ∧
      (find_mp3_frames data start_offset min_consec max_scan).Pairwise
        (fun f g => f.1 < g.1 ∧ f.1 + f.2 ≤ g.1) := by
  simp only [find_mp3_frames]
  cases max_scan with
  | none => exact findFramesLoop_spec data data.length data.length min_consec _ start_offset
  | some m => exact findFramesLoop_spec data data.length _ min_consec _ start_offset

set_option maxRecDepth 10000 in
/-- C10 witness: the invariants applied to the first frame found in a
concrete three-frame stream. -/
theorem c10_find_frames_invariants_witness :
    (0, 104) ∈ find_mp3_frames frameData 0 3 none ∧
      (0 ≤ 0 ∧ 4 < 104 ∧ 0 + 104 ≤ frameData.length) := by
  have hm : (0, 104) ∈ find_mp3_frames frameData 0 3 none := by decide
  exact ⟨hm, (c10_find_frames_invariants frameData 0 3 none).1 (0, 104) hm⟩

end Mp3Stego
